import Mathlib

/-!
# Verification of the bdss-notebooks label/matrix/evaluation pipeline

Shallow embedding of the computational core of the repository:

* `precision_at_k` and `precision_score` from
  `07_3_Machine_Learning_Models.ipynb` (scores are modelled as exact
  rationals; Python `int()` is modelled as truncation toward zero;
  NumPy indexing accepts indices in `[-n, n)` and fails outside,
  modelled by `Option`).
* `generate_labels` from
  `Old Notebooks/03_2_ML_data_preparation_creating_labels.ipynb`
  (dates are points on an integer timeline, window widths are integer
  offsets; the three SQL statements — cohort selection, the
  `DISTINCT ON (recptno) ... ORDER BY recptno, start_date` outcome
  join, and the final `LEFT JOIN` with `CASE WHEN ... IS NULL` — are
  embedded as list transformations; the existence check / `overwrite`
  flag is explicit state passing of the materialized table).
* the train-matrix construction and cleaning from
  `07_3_Machine_Learning_Models.ipynb` (SQL `LEFT JOIN` of the feature
  table onto the label table, drop of rows with NULL/NaN values, drop
  of rows with `age_first_admit` outside `[14, 99]`).
-/

namespace BDSS

/-- Python `int()` applied to a real value, on exact rationals:
truncation toward zero (`int(2.7) = 2`, `int(-2.7) = -2`). -/
def pyInt (q : ℚ) : ℤ := if 0 ≤ q then ⌊q⌋ else -⌊-q⌋

/-- sklearn `precision_score(y_true, y_pred)` for binary labels:
`TP / (TP + FP)` over the paired rows, and (sklearn's `zero_division`
default) `0` when there are no predicted positives. -/
def precision_score (y_true y_pred : List ℕ) : ℚ :=
  let pairs := y_true.zip y_pred
  let pp := pairs.countP fun q => q.2 == 1
  let tp := pairs.countP fun q => q.1 == 1 && q.2 == 1
  if pp = 0 then 0 else (tp : ℚ) / (pp : ℚ)

/-- Embedding of `np.sort(y_scores)[::-1]`: ascending sort, then
reversal. -/
def sortDesc (l : List ℚ) : List ℚ := (List.insertionSort (· ≤ ·) l).reverse

/-- The function `precision_at_k(y_true, y_scores, k)` from
`07_3_Machine_Learning_Models.ipynb`:

    threshold = np.sort(y_scores)[::-1][int(k*len(y_scores))]
    y_pred = np.asarray([1 if i >= threshold else 0 for i in y_scores])
    return precision_score(y_true, y_pred)

NumPy integer indexing accepts exactly the indices in
`[-len, len)` (negative indices wrap by adding `len`) and raises
`IndexError` otherwise; the failing case is `none`. -/
def precision_at_k (y_true : List ℕ) (y_scores : List ℚ) (k : ℚ) : Option ℚ :=
  let n := y_scores.length
  let idx := pyInt (k * (n : ℚ))
  if -(n : ℤ) ≤ idx ∧ idx < (n : ℤ) then
    let j := (if idx < 0 then idx + (n : ℤ) else idx).toNat
    let threshold := (sortDesc y_scores).getD j 0
    let y_pred := y_scores.map fun s => if threshold ≤ s then 1 else 0
    some (precision_score y_true y_pred)
  else
    none

/-- A row of the `il_dhs.ind_spells` table: one benefit spell of one
entity. Dates are points on an abstract integer timeline. -/
structure Spell where
  recptno : ℕ
  start_date : ℤ
  end_date : ℤ
  benefit_type : String
deriving DecidableEq

/-- The cohort query of `generate_labels` (table `cohort_{tbl_suffix}`):

    SELECT recptno, start_date, end_date FROM il_dhs.ind_spells
    WHERE end_date >= (('{pred_date}' - '{months_off}') - '{months_back}')
      AND end_date < ('{pred_date}' - '{months_off}')
      AND benefit_type = 'tanf46';

One output row per qualifying spell. -/
def cohort (spells : List Spell) (pred_date months_off months_back : ℤ) :
    List Spell :=
  spells.filter fun s =>
    decide (pred_date - months_off - months_back ≤ s.end_date) &&
    decide (s.end_date < pred_date - months_off) &&
    (s.benefit_type == "tanf46")

/-- The `WHERE` clause of the `cohort_returned_{tbl_suffix}` query:
forward-window spells of the qualifying benefit type whose entity is in
the cohort (`recptno IN (SELECT recptno FROM cohort_{tbl_suffix})`). -/
def returnedPool (spells : List Spell) (pred_date months_ahead : ℤ)
    (coh : List Spell) : List Spell :=
  spells.filter fun s =>
    decide (pred_date ≤ s.start_date) &&
    decide (s.start_date < pred_date + months_ahead) &&
    (s.benefit_type == "tanf46") &&
    coh.any (fun c => c.recptno == s.recptno)

/-- The ordering `ORDER BY recptno, start_date` used by the
`DISTINCT ON (recptno)` query: lexicographic on (entity id, start date). -/
def spellLe (a b : Spell) : Prop :=
  a.recptno < b.recptno ∨ (a.recptno = b.recptno ∧ a.start_date ≤ b.start_date)

instance : DecidableRel spellLe := fun a b =>
  inferInstanceAs (Decidable (a.recptno < b.recptno ∨
    (a.recptno = b.recptno ∧ a.start_date ≤ b.start_date)))

instance : IsTotal Spell spellLe :=
  ⟨fun a b => by
    unfold spellLe
    rcases lt_trichotomy a.recptno b.recptno with h | h | h
    · exact Or.inl (Or.inl h)
    · rcases le_total a.start_date b.start_date with h2 | h2
      · exact Or.inl (Or.inr ⟨h, h2⟩)
      · exact Or.inr (Or.inr ⟨h.symm, h2⟩)
    · exact Or.inr (Or.inl h)⟩

instance : IsTrans Spell spellLe :=
  ⟨fun a b c hab hbc => by
    unfold spellLe at *
    rcases hab with h1 | ⟨e1, s1⟩
    · rcases hbc with h2 | ⟨e2, s2⟩
      · exact Or.inl (h1.trans h2)
      · exact Or.inl (e2 ▸ h1)
    · rcases hbc with h2 | ⟨e2, s2⟩
      · exact Or.inl (e1 ▸ h2)
      · exact Or.inr ⟨e1.trans e2, s1.trans s2⟩⟩

/-- First pass of PostgreSQL `DISTINCT ON (recptno)`: scan the ordered
rows, keeping a row only when its `recptno` has not been seen yet. -/
def keepFirstAux : List Spell → List ℕ → List Spell
  | [], _ => []
  | x :: xs, seen =>
    if x.recptno ∈ seen then keepFirstAux xs seen
    else x :: keepFirstAux xs (x.recptno :: seen)

/-- Embedding of
`SELECT DISTINCT ON (recptno) ... ORDER BY recptno, start_date`:
order the rows lexicographically by (entity id, start date), then keep
the first row of each entity group. -/
def distinctOn (rows : List Spell) : List Spell :=
  keepFirstAux (List.insertionSort spellLe rows) []

/-- The outcome joiner of `generate_labels`
(table `cohort_returned_{tbl_suffix}`). -/
def cohortReturned (spells : List Spell) (pred_date months_ahead : ℤ)
    (coh : List Spell) : List Spell :=
  distinctOn (returnedPool spells pred_date months_ahead coh)

/-- A row of the materialized `{schema}.labels_{tbl_suffix}` table. -/
structure LabelRow where
  recptno : ℕ
  start_date : ℤ
  end_date : ℤ
  label : ℕ
deriving DecidableEq

/-- SQL `LEFT JOIN` of `as` (left) against `bs` (right) on equal keys:
every left row joined with each matching right row, or with `none` when
no right row matches. -/
def leftJoinBy {α β : Type} (key1 : α → ℕ) (key2 : β → ℕ) :
    List α → List β → List (α × Option β)
  | [], _ => []
  | a :: as, bs =>
    (match bs.filter (fun b => key2 b == key1 a) with
     | [] => [(a, none)]
     | ms => ms.map fun b => (a, some b)) ++ leftJoinBy key1 key2 as bs

/-- The label-table query of `generate_labels`:

    SELECT a.recptno, a.start_date, a.end_date,
      CASE WHEN b.recptno IS NULL THEN 0 ELSE 1 END as label
    FROM cohort_{tbl_suffix} a
    LEFT JOIN cohort_returned_{tbl_suffix} b ON a.recptno = b.recptno;
-/
def labelTable (spells : List Spell)
    (pred_date months_off months_back months_ahead : ℤ) : List LabelRow :=
  (leftJoinBy Spell.recptno Spell.recptno
      (cohort spells pred_date months_off months_back)
      (cohortReturned spells pred_date months_ahead
        (cohort spells pred_date months_off months_back))).map fun p =>
    { recptno := p.1.recptno
      start_date := p.1.start_date
      end_date := p.1.end_date
      label := match p.2 with | none => 0 | some _ => 1 }

/-- The function `generate_labels(preddate, months_off, months_back,
months_ahead, schema, overwrite)`: it first checks `pg_tables` for the
materialized table `{schema}.labels_{tbl_suffix}` (whose name is
determined by the prediction date); it runs the label-building SQL only
when the table does not exist or `overwrite` is set, and in every case
returns the table read back from the database.  `existing` is the
materialized table for this prediction date if present; the result pairs
the returned dataframe with the post-call table state. -/
def generate_labels (spells : List Spell)
    (pred_date months_off months_back months_ahead : ℤ)
    (overwrite : Bool) (existing : Option (List LabelRow)) :
    List LabelRow × Option (List LabelRow) :=
  match existing with
  | some t =>
      if overwrite then
        let fresh := labelTable spells pred_date months_off months_back months_ahead
        (fresh, some fresh)
      else (t, some t)
  | none =>
      let fresh := labelTable spells pred_date months_off months_back months_ahead
      (fresh, some fresh)

/-- A row of `recidivism_labels_2009_2013` (the label table of the
training-matrix step in `07_3_Machine_Learning_Models.ipynb`). -/
structure RecLabelRow where
  inmate_doc_number : ℕ
  recidivism : ℕ
deriving DecidableEq

/-- A row of `features_2000_2008`.  Modelled from the spec: the feature
table itself is built in a notebook not present here; per the spec's
data model it is a fixed-width numeric tuple per entity id ("Feature
vector: fixed-width numeric tuple per entity id").  `Option` models SQL
NULL / pandas NaN in a feature column. -/
structure FeatureRow where
  inmate_doc_number : ℕ
  num_admits : Option ℤ
  length_longest_sentence : Option ℤ
  age_first_admit : Option ℤ
  age : Option ℤ
deriving DecidableEq

/-- A row of `train_matrix` / the `df_training` dataframe. -/
structure MatrixRow where
  inmate_doc_number : ℕ
  recidivism : ℕ
  num_admits : Option ℤ
  length_longest_sentence : Option ℤ
  age_first_admit : Option ℤ
  age : Option ℤ
deriving DecidableEq

/-- The `create table train_matrix as select l.inmate_doc_number,
l.recidivism, f.num_admits, f.length_longest_sentence,
f.age_first_admit, f.age from recidivism_labels_2009_2013 l left join
features_2000_2008 f on f.inmate_doc_number = l.inmate_doc_number`
query: a label row with no feature match gets all-NULL feature
columns. -/
def train_matrix (labels : List RecLabelRow) (features : List FeatureRow) :
    List MatrixRow :=
  (leftJoinBy RecLabelRow.inmate_doc_number FeatureRow.inmate_doc_number
      labels features).map fun p =>
    { inmate_doc_number := p.1.inmate_doc_number
      recidivism := p.1.recidivism
      num_admits := p.2.bind FeatureRow.num_admits
      length_longest_sentence := p.2.bind FeatureRow.length_longest_sentence
      age_first_admit := p.2.bind FeatureRow.age_first_admit
      age := p.2.bind FeatureRow.age }

/-- Row-level `df_training.isnull().any(axis=1)`: some column is
NULL/NaN (the id and label columns come from the label table and are
never NULL). -/
def hasMissing (r : MatrixRow) : Bool :=
  r.num_admits.isNone || r.length_longest_sentence.isNone ||
  r.age_first_admit.isNone || r.age.isNone

/-- Row-level `(df_training['age_first_admit'] >= 14) &
(df_training['age_first_admit'] <= 99)` (a NaN comparison is false in
pandas). -/
def inAgeRange (r : MatrixRow) : Bool :=
  match r.age_first_admit with
  | some a => decide (14 ≤ a) && decide (a ≤ 99)
  | none => false

/-- The cleaning applied to `df_training` (and identically to
`df_test`): drop rows with missing values, then drop rows whose
`age_first_admit` is outside `[14, 99]`. -/
def cleanMatrix (m : List MatrixRow) : List MatrixRow :=
  (m.filter fun r => !hasMissing r).filter inAgeRange

/-- Number of rows dropped by the missing-value filter. -/
def droppedMissing (m : List MatrixRow) : ℕ :=
  (m.filter hasMissing).length

/-- Number of rows dropped by the age-range filter (among rows that
survived the missing-value filter). -/
def droppedOutOfRange (m : List MatrixRow) : ℕ :=
  ((m.filter fun r => !hasMissing r).filter fun r => !inAgeRange r).length

/-- Labels `y_true` of the spec's concrete precision-at-k scenario. -/
def c2_true : List ℕ := [1, 0, 1, 0, 1, 0, 0, 0, 0, 0]

/-- Scores `y_scores` of the spec's concrete precision-at-k scenario. -/
def c2_scores : List ℚ :=
  [9/10, 8/10, 7/10, 6/10, 5/10, 4/10, 3/10, 2/10, 1/10, 1/20]

/-- Spells dataset for the concrete labelling scenario of the spec:
entities A=1, B=2, C=3 each have one spell ending in the trailing
window of prediction date 0 (offset 10, lookback 20); A has one forward
spell, B none, and C two forward spells starting at day 5 and day 40
inside the 0-60 day forward window. -/
def scSpells : List Spell :=
  [ ⟨1, -45, -25, "tanf46"⟩,
    ⟨1, 10, 30, "tanf46"⟩,
    ⟨2, -40, -15, "tanf46"⟩,
    ⟨3, -40, -20, "tanf46"⟩,
    ⟨3, 5, 20, "tanf46"⟩,
    ⟨3, 40, 55, "tanf46"⟩ ]

/-- A dataset on which one entity (id 7) has two spells ending inside
the trailing window, hence two cohort rows. -/
def dupSpells : List Spell :=
  [ ⟨7, -40, -20, "tanf46"⟩,
    ⟨7, -35, -15, "tanf46"⟩ ]

/-- A dataset on which widening the lookback window from 20 to 25 days
changes the label table: the spell ending at day -32 enters the cohort
only under the wider window. -/
def demoSpells : List Spell :=
  [ ⟨1, -50, -32, "tanf46"⟩,
    ⟨1, 5, 20, "tanf46"⟩ ]

/-! ## General list lemmas -/

theorem length_filter_add_length_filter_not {α : Type} (l : List α) (p : α → Bool) :
    (l.filter p).length + (l.filter fun a => !p a).length = l.length := by
  induction l with
  | nil => rfl
  | cons x l ih =>
    simp only [List.filter_cons]
    by_cases hx : p x = true
    · rw [if_pos hx, if_neg (by simp [hx])]
      simp only [List.length_cons]
      omega
    · rw [if_neg hx, if_pos (by simp [Bool.not_eq_true] at hx; simp [hx])]
      simp only [List.length_cons]
      omega

theorem countP_zip_snd (p : ℚ → Bool) :
    ∀ (l1 : List ℕ) (l2 : List ℚ), l1.length = l2.length →
      (l1.zip l2).countP (fun q => p q.2) = l2.countP p := by
  intro l1
  induction l1 with
  | nil =>
    intro l2 h
    cases l2 with
    | nil => rfl
    | cons b l2 => simp at h
  | cons a l1 ih =>
    intro l2 h
    cases l2 with
    | nil => simp at h
    | cons b l2 =>
      simp only [List.zip_cons_cons, List.countP_cons]
      rw [ih l2 (by simpa using h)]

theorem countP_key_le_one {α : Type} (key : α → ℕ) :
    ∀ (l : List α), l.Pairwise (fun a b => key a ≠ key b) →
      ∀ k, l.countP (fun b => key b == k) ≤ 1 := by
  intro l
  induction l with
  | nil => intro _ k; simp
  | cons a l ih =>
    intro hp k
    rcases List.pairwise_cons.mp hp with ⟨ha, hl⟩
    rw [List.countP_cons]
    by_cases hak : (key a == k) = true
    · have h0 : l.countP (fun b => key b == k) = 0 := by
        rw [List.countP_eq_zero]
        intro b hb hbeq
        have h1 : key a = k := by simpa using hak
        have h2 : key b = k := by simpa using hbeq
        exact (ha b hb) (h1.trans h2.symm)
      rw [h0, if_pos hak]
    · rw [if_neg hak]
      have := ih hl k
      omega

theorem countP_key_eq_one {α : Type} (key : α → ℕ) :
    ∀ (l : List α), l.Pairwise (fun a b => key a ≠ key b) →
      ∀ a ∈ l, l.countP (fun b => key b == key a) = 1 := by
  intro l
  induction l with
  | nil => intro _ a ha; simp at ha
  | cons x l ih =>
    intro hp a ha
    rcases List.pairwise_cons.mp hp with ⟨hx, hl⟩
    rw [List.countP_cons]
    rcases List.mem_cons.mp ha with rfl | ha2
    · have h0 : l.countP (fun b => key b == key a) = 0 := by
        rw [List.countP_eq_zero]
        intro b hb hbeq
        exact (hx b hb) ((by simpa using hbeq : key b = key a).symm)
      rw [h0]
      simp
    · have hne : ¬ (key x == key a) = true := by
        simp only [beq_iff_eq]
        exact fun e => (hx a ha2) e
      rw [if_neg hne]
      simpa using ih hl a ha2

/-! ## Lemmas about the descending sort -/

theorem sortDesc_sorted (l : List ℚ) : (sortDesc l).Sorted (· ≥ ·) := by
  have h := List.sorted_insertionSort (· ≤ ·) l
  unfold sortDesc
  rw [List.Sorted, List.pairwise_reverse]
  exact h.imp fun hab => ge_iff_le.mpr hab

theorem sortDesc_perm (l : List ℚ) : (sortDesc l).Perm l :=
  (List.reverse_perm _).trans (List.perm_insertionSort _ l)

/-! ## Closed form of precision_at_k on a valid index

For any list `d` that descending-sorts the scores and any in-range rank
`m = floor(k·n)`, the function returns the precision of `y_true` against
the prediction vector that marks exactly the scores `≥ d[m]` positive. -/

theorem precision_at_k_eval (y_true : List ℕ) (y_scores : List ℚ) (k : ℚ)
    (d : List ℚ) (hsort : d.Sorted (· ≥ ·)) (hperm : d.Perm y_scores)
    (m : ℕ) (hm : (m : ℤ) = ⌊k * (y_scores.length : ℚ)⌋)
    (hmn : m < y_scores.length)
    (hlen : y_true.length = y_scores.length) :
    precision_at_k y_true y_scores k
      = some ((((y_true.zip y_scores).countP
            fun q => q.1 == 1 && decide (d.getD m 0 ≤ q.2)) : ℚ)
          / ((y_scores.countP fun s => decide (d.getD m 0 ≤ s)) : ℚ))
    ∧ 0 < y_scores.countP fun s => decide (d.getD m 0 ≤ s) := by
  have hd : sortDesc y_scores = d :=
    List.eq_of_perm_of_sorted ((sortDesc_perm y_scores).trans hperm.symm)
      (sortDesc_sorted y_scores) hsort
  have hkn : 0 ≤ k * (y_scores.length : ℚ) :=
    Int.floor_nonneg.mp (hm ▸ Int.natCast_nonneg m)
  have hidx : pyInt (k * (y_scores.length : ℚ)) = (m : ℤ) := by
    unfold pyInt
    rw [if_pos hkn, ← hm]
  have hdlen : m < d.length := by
    rw [hperm.length_eq]
    exact hmn
  have hmem : d.getD m 0 ∈ y_scores := by
    rw [List.getD_eq_getElem d 0 hdlen]
    exact hperm.mem_iff.mp (List.getElem_mem hdlen)
  have hpos : 0 < y_scores.countP fun s => decide (d.getD m 0 ≤ s) :=
    List.countP_pos_iff.mpr ⟨d.getD m 0, hmem, by simp⟩
  refine ⟨?_, hpos⟩
  simp only [precision_at_k]
  rw [hidx]
  rw [if_pos ⟨le_trans (neg_nonpos.mpr (Int.natCast_nonneg _)) (Int.natCast_nonneg m),
      by exact_mod_cast hmn⟩]
  rw [if_neg (not_lt.mpr (Int.natCast_nonneg m)), Int.toNat_natCast, hd]
  congr 1
  simp only [precision_score]
  rw [List.zip_map_right, List.countP_map, List.countP_map]
  have e1 : ∀ th : ℚ, ((fun (q : ℕ × ℕ) => q.2 == 1) ∘
        Prod.map id fun s => if th ≤ s then (1 : ℕ) else 0)
      = fun (q : ℕ × ℚ) => decide (th ≤ q.2) := by
    intro th
    funext q
    by_cases h : th ≤ q.2 <;> simp [h, Prod.map]
  have e2 : ∀ th : ℚ, ((fun (q : ℕ × ℕ) => q.1 == 1 && (q.2 == 1)) ∘
        Prod.map id fun s => if th ≤ s then (1 : ℕ) else 0)
      = fun (q : ℕ × ℚ) => q.1 == 1 && decide (th ≤ q.2) := by
    intro th
    funext q
    by_cases h : th ≤ q.2 <;> simp [h, Prod.map]
  rw [e1, e2]
  rw [countP_zip_snd (fun s => decide (d.getD m 0 ≤ s)) y_true y_scores hlen]
  rw [if_neg (by omega)]

/-! ## Lemmas about the DISTINCT ON embedding -/

theorem keepFirstAux_subset :
    ∀ (l : List Spell) (seen : List ℕ) (x : Spell),
      x ∈ keepFirstAux l seen → x ∈ l := by
  intro l
  induction l with
  | nil => intro seen x h; simp [keepFirstAux] at h
  | cons a l ih =>
    intro seen x h
    simp only [keepFirstAux] at h
    by_cases hs : a.recptno ∈ seen
    · rw [if_pos hs] at h
      exact List.mem_cons_of_mem a (ih seen x h)
    · rw [if_neg hs] at h
      rcases List.mem_cons.mp h with rfl | h2
      · exact List.mem_cons_self x l
      · exact List.mem_cons_of_mem a (ih _ x h2)

theorem keepFirstAux_notin_seen :
    ∀ (l : List Spell) (seen : List ℕ) (x : Spell),
      x ∈ keepFirstAux l seen → x.recptno ∉ seen := by
  intro l
  induction l with
  | nil => intro seen x h; simp [keepFirstAux] at h
  | cons a l ih =>
    intro seen x h
    simp only [keepFirstAux] at h
    by_cases hs : a.recptno ∈ seen
    · rw [if_pos hs] at h
      exact ih seen x h
    · rw [if_neg hs] at h
      rcases List.mem_cons.mp h with rfl | h2
      · exact hs
      · have h3 := ih _ x h2
        exact fun hmem => h3 (List.mem_cons_of_mem _ hmem)

theorem keepFirstAux_pairwise :
    ∀ (l : List Spell) (seen : List ℕ),
      (keepFirstAux l seen).Pairwise (fun a b => a.recptno ≠ b.recptno) := by
  intro l
  induction l with
  | nil => intro seen; simp [keepFirstAux]
  | cons a l ih =>
    intro seen
    simp only [keepFirstAux]
    by_cases hs : a.recptno ∈ seen
    · rw [if_pos hs]
      exact ih seen
    · rw [if_neg hs]
      refine List.Pairwise.cons ?_ (ih _)
      intro b hb e
      have h3 := keepFirstAux_notin_seen _ _ _ hb
      apply h3
      rw [← e]
      exact List.mem_cons_self _ _

theorem keepFirstAux_keys :
    ∀ (l : List Spell) (seen : List ℕ) (k : ℕ),
      (∃ x ∈ keepFirstAux l seen, x.recptno = k) ↔
        (k ∉ seen ∧ ∃ x ∈ l, x.recptno = k) := by
  intro l
  induction l with
  | nil => intro seen k; simp [keepFirstAux]
  | cons a l ih =>
    intro seen k
    simp only [keepFirstAux]
    by_cases hs : a.recptno ∈ seen
    · rw [if_pos hs, ih]
      constructor
      · rintro ⟨hk, x, hx, rfl⟩
        exact ⟨hk, x, List.mem_cons_of_mem a hx, rfl⟩
      · rintro ⟨hk, x, hx, rfl⟩
        rcases List.mem_cons.mp hx with rfl | hx2
        · exact absurd hs hk
        · exact ⟨hk, x, hx2, rfl⟩
    · rw [if_neg hs]
      constructor
      · rintro ⟨x, hx, rfl⟩
        rcases List.mem_cons.mp hx with rfl | hx2
        · exact ⟨hs, x, List.mem_cons_self x l, rfl⟩
        · obtain ⟨hns, y, hy, hyk⟩ := (ih (a.recptno :: seen) x.recptno).mp ⟨x, hx2, rfl⟩
          exact ⟨fun hmem => hns (List.mem_cons_of_mem _ hmem), y,
            List.mem_cons_of_mem a hy, hyk⟩
      · rintro ⟨hk, x, hx, rfl⟩
        rcases List.mem_cons.mp hx with rfl | hx2
        · exact ⟨x, List.mem_cons_self _ _, rfl⟩
        · by_cases hxa : x.recptno = a.recptno
          · exact ⟨a, List.mem_cons_self _ _, hxa.symm⟩
          · have hnotin : x.recptno ∉ a.recptno :: seen := by
              intro hmem
              rcases List.mem_cons.mp hmem with h | h
              · exact hxa h
              · exact hk h
            obtain ⟨y, hy, hyk⟩ :=
              (ih (a.recptno :: seen) x.recptno).mpr ⟨hnotin, x, hx2, rfl⟩
            exact ⟨y, List.mem_cons_of_mem a hy, hyk⟩

theorem keepFirstAux_min :
    ∀ (l : List Spell) (seen : List ℕ) (b : Spell),
      l.Sorted spellLe → b ∈ keepFirstAux l seen →
      ∀ r ∈ l, r.recptno = b.recptno → b.start_date ≤ r.start_date := by
  intro l
  induction l with
  | nil => intro seen b _ hb; simp [keepFirstAux] at hb
  | cons a l ih =>
    intro seen b hsort hb r hr hkey
    have hsl : l.Sorted spellLe := (List.pairwise_cons.mp hsort).2
    have hhead : ∀ y ∈ l, spellLe a y := (List.pairwise_cons.mp hsort).1
    simp only [keepFirstAux] at hb
    by_cases hs : a.recptno ∈ seen
    · rw [if_pos hs] at hb
      rcases List.mem_cons.mp hr with rfl | hr2
      · have h3 := keepFirstAux_notin_seen _ _ _ hb
        exact absurd (hkey ▸ hs) h3
      · exact ih seen b hsl hb r hr2 hkey
    · rw [if_neg hs] at hb
      rcases List.mem_cons.mp hb with rfl | hb2
      · rcases List.mem_cons.mp hr with rfl | hr2
        · exact le_refl _
        · rcases hhead r hr2 with hlt | ⟨heq, hle⟩
          · rw [hkey] at hlt
            exact absurd hlt (lt_irrefl _)
          · exact hle
      · rcases List.mem_cons.mp hr with rfl | hr2
        · have h3 := keepFirstAux_notin_seen _ _ _ hb2
          exact absurd (by rw [← hkey]; exact List.mem_cons_self _ _) h3
        · exact ih _ b hsl hb2 r hr2 hkey

theorem distinctOn_pairwise (rows : List Spell) :
    (distinctOn rows).Pairwise (fun a b => a.recptno ≠ b.recptno) :=
  keepFirstAux_pairwise _ []

theorem distinctOn_subset (rows : List Spell) (b : Spell)
    (hb : b ∈ distinctOn rows) : b ∈ rows :=
  (List.perm_insertionSort spellLe rows).mem_iff.mp
    (keepFirstAux_subset _ _ _ hb)

theorem distinctOn_keys (rows : List Spell) (k : ℕ) :
    (∃ x ∈ distinctOn rows, x.recptno = k) ↔ ∃ x ∈ rows, x.recptno = k := by
  unfold distinctOn
  rw [keepFirstAux_keys]
  constructor
  · rintro ⟨-, x, hx, rfl⟩
    exact ⟨x, (List.perm_insertionSort spellLe rows).mem_iff.mp hx, rfl⟩
  · rintro ⟨x, hx, rfl⟩
    exact ⟨List.not_mem_nil _, x,
      (List.perm_insertionSort spellLe rows).mem_iff.mpr hx, rfl⟩

theorem distinctOn_min (rows : List Spell) (b : Spell)
    (hb : b ∈ distinctOn rows) (r : Spell) (hr : r ∈ rows)
    (hkey : r.recptno = b.recptno) : b.start_date ≤ r.start_date :=
  keepFirstAux_min _ [] b (List.sorted_insertionSort spellLe rows) hb r
    ((List.perm_insertionSort spellLe rows).mem_iff.mpr hr) hkey

/-! ## Lemmas about the LEFT JOIN embedding -/

theorem leftJoinBy_eq_map {α β : Type} (key1 : α → ℕ) (key2 : β → ℕ)
    (bs : List β)
    (hb : ∀ a : α, (bs.filter fun b => key2 b == key1 a).length ≤ 1) :
    ∀ as : List α, leftJoinBy key1 key2 as bs
      = as.map fun a => (a, (bs.filter fun b => key2 b == key1 a).head?) := by
  intro as
  induction as with
  | nil => rfl
  | cons a as ih =>
    simp only [leftJoinBy, List.map_cons]
    rw [ih]
    rcases hfe : bs.filter (fun b => key2 b == key1 a) with - | ⟨b, ms⟩
    · rfl
    · have hlen1 := hb a
      rw [hfe] at hlen1
      have hms : ms = [] := by
        cases ms with
        | nil => rfl
        | cons c cs => simp at hlen1
      subst hms
      rfl

theorem leftJoinBy_mem {α β : Type} (key1 : α → ℕ) (key2 : β → ℕ)
    (bs : List β) :
    ∀ (as : List α) (p : α × Option β), p ∈ leftJoinBy key1 key2 as bs →
      p.1 ∈ as
      ∧ (p.2 = none → ∀ b ∈ bs, key2 b ≠ key1 p.1)
      ∧ ∀ b : β, p.2 = some b → b ∈ bs ∧ key2 b = key1 p.1 := by
  intro as
  induction as with
  | nil => intro p hp; simp [leftJoinBy] at hp
  | cons a as ih =>
    intro p hp
    simp only [leftJoinBy, List.mem_append] at hp
    rcases hp with hp | hp
    · rcases hfe : bs.filter (fun b => key2 b == key1 a) with - | ⟨c, ms⟩
      · rw [hfe] at hp
        simp only [List.mem_singleton] at hp
        subst hp
        refine ⟨List.mem_cons_self _ _, ?_, ?_⟩
        · intro _ b hbmem hbeq
          have hmem2 : b ∈ bs.filter (fun b => key2 b == key1 a) := by
            rw [List.mem_filter]
            exact ⟨hbmem, by simp [hbeq]⟩
          rw [hfe] at hmem2
          simp at hmem2
        · intro b hb
          simp at hb
      · rw [hfe] at hp
        rw [List.mem_map] at hp
        obtain ⟨x, hx, rfl⟩ := hp
        refine ⟨List.mem_cons_self _ _, by simp, ?_⟩
        intro b hb
        simp only [Option.some.injEq] at hb
        subst hb
        have hmem2 : x ∈ bs.filter (fun y => key2 y == key1 a) := by
          rw [hfe]
          exact hx
        rw [List.mem_filter] at hmem2
        exact ⟨hmem2.1, by simpa using hmem2.2⟩
    · obtain ⟨h1, h2, h3⟩ := ih p hp
      exact ⟨List.mem_cons_of_mem _ h1, h2, h3⟩

/-! ## Facts about the concrete precision-at-k scenario -/

theorem c2_scores_sorted : List.Sorted (· ≥ ·) c2_scores := by
  norm_num [c2_scores, List.sorted_cons]

theorem c2_floor_eq :
    ((3 : ℕ) : ℤ) = ⌊(3 / 10 : ℚ) * (c2_scores.length : ℚ)⌋ := by
  have h : (3 / 10 : ℚ) * (c2_scores.length : ℚ) = ((3 : ℤ) : ℚ) := by
    norm_num [c2_scores]
  rw [h, Int.floor_intCast]
  norm_num

theorem c2_value : precision_at_k c2_true c2_scores (3 / 10) = some (1 / 2) := by
  obtain ⟨h1, -⟩ := precision_at_k_eval c2_true c2_scores (3 / 10) c2_scores
    c2_scores_sorted (List.Perm.refl _) 3 c2_floor_eq
    (by norm_num [c2_scores]) (by norm_num [c2_true, c2_scores])
  rw [h1]
  norm_num [c2_true, c2_scores, List.countP_cons, List.zip_cons_cons,
    List.getD_cons_zero, List.getD_cons_succ]

/-! ## Claim theorems -/

/-- C1: for every score list and every `k` with `0 ≤ floor(k·n) < n`
(given as a natural rank `m` with `m = floor(k·n) < n`),
`precision_at_k` takes as threshold the entry at rank `m` (0-indexed)
of the scores sorted in descending order (`d` is any descending-sorted
permutation of the scores), predicts positive exactly the entries whose
score is `≥` that threshold — so every entry tied with the threshold is
included and the predicted-positive count (which is positive) may
exceed `k·n` — and returns the precision of `y_true` against that
induced prediction vector: true positives over predicted positives. -/
theorem precision_at_k_spec (y_true : List ℕ) (y_scores : List ℚ) (k : ℚ)
    (d : List ℚ) (hsort : d.Sorted (· ≥ ·)) (hperm : d.Perm y_scores)
    (m : ℕ) (hm : (m : ℤ) = ⌊k * (y_scores.length : ℚ)⌋)
    (hmn : m < y_scores.length)
    (hlen : y_true.length = y_scores.length) :
    precision_at_k y_true y_scores k
      = some ((((y_true.zip y_scores).countP
            fun q => q.1 == 1 && decide (d.getD m 0 ≤ q.2)) : ℚ)
          / ((y_scores.countP fun s => decide (d.getD m 0 ≤ s)) : ℚ))
    ∧ 0 < y_scores.countP fun s => decide (d.getD m 0 ≤ s) :=
  precision_at_k_eval y_true y_scores k d hsort hperm m hm hmn hlen

/-- Witness for C1 at `y_true = [1]`, `y_scores = [1]`, `k = 0`. -/
theorem precision_at_k_spec_witness :
    precision_at_k [1] [(1 : ℚ)] 0
      = some (((([1].zip [(1 : ℚ)]).countP
            fun q => q.1 == 1 && decide (List.getD [(1 : ℚ)] 0 0 ≤ q.2)) : ℚ)
          / (([(1 : ℚ)].countP fun s => decide (List.getD [(1 : ℚ)] 0 0 ≤ s)) : ℚ))
    ∧ 0 < [(1 : ℚ)].countP fun s => decide (List.getD [(1 : ℚ)] 0 0 ≤ s) :=
  precision_at_k_spec [1] [(1 : ℚ)] 0 [(1 : ℚ)] (by simp) (List.Perm.refl _) 0
    (by simp) (by simp) (by simp)

/-- C2 counterexample: on the spec's concrete input
(`y_true = [1,0,1,0,1,0,0,0,0,0]`,
`y_scores = [.9,.8,.7,.6,.5,.4,.3,.2,.1,.05]`, `k = 0.3`) the code does
NOT return precision `2/3`: the threshold is the rank-3 (0-indexed)
descending score `0.6`, the `≥`-rule therefore selects the top FOUR
scores with true labels `1,0,1,0`, and the returned precision is
`1/2`. -/
theorem precision_at_k_c2_counterexample :
    precision_at_k c2_true c2_scores (3 / 10) ≠ some (2 / 3)
    ∧ precision_at_k c2_true c2_scores (3 / 10) = some (1 / 2) := by
  refine ⟨?_, c2_value⟩
  rw [c2_value]
  simp only [ne_eq, Option.some.injEq]
  norm_num

/-- C2 amended: on the concrete input the code computes threshold
`6/10` (the value at rank `int(0.3·10) = 3` of the descending sort),
selects the top-4 scores `{.9,.8,.7,.6}` as predicted positives, whose
true labels are `{1,0,1,0}` (2 true positives), and returns precision
`2/4 = 1/2`. -/
theorem precision_at_k_c2_actual :
    precision_at_k c2_true c2_scores (3 / 10) = some (1 / 2)
    ∧ (sortDesc c2_scores).getD 3 0 = 6 / 10
    ∧ c2_scores.countP (fun s => decide ((6 : ℚ) / 10 ≤ s)) = 4
    ∧ (c2_true.zip c2_scores).countP
        (fun q => q.1 == 1 && decide ((6 : ℚ) / 10 ≤ q.2)) = 2 := by
  have hsd : sortDesc c2_scores = c2_scores :=
    List.eq_of_perm_of_sorted (sortDesc_perm c2_scores)
      (sortDesc_sorted c2_scores) c2_scores_sorted
  refine ⟨c2_value, ?_, ?_, ?_⟩
  · rw [hsd]
    norm_num [c2_scores, List.getD_cons_zero, List.getD_cons_succ]
  · norm_num [c2_scores, List.countP_cons]
  · norm_num [c2_true, c2_scores, List.countP_cons, List.zip_cons_cons]

/-- C10: whenever `int(k·n) ≥ n` the descending-sort indexing of
`precision_at_k` is out of bounds and the call fails without returning
a value (`none`); in particular for `k = 1` on any non-empty list and
for every `k` on the empty list, so the upper endpoint `k = 1` is not
supported. -/
theorem precision_at_k_upper_endpoint :
    (∀ (y_true : List ℕ) (y_scores : List ℚ) (k : ℚ),
        (y_scores.length : ℤ) ≤ pyInt (k * (y_scores.length : ℚ)) →
        precision_at_k y_true y_scores k = none)
    ∧ (∀ (y_true : List ℕ) (y_scores : List ℚ),
        y_scores ≠ [] → precision_at_k y_true y_scores 1 = none)
    ∧ ∀ (y_true : List ℕ) (k : ℚ), precision_at_k y_true [] k = none := by
  have main : ∀ (y_true : List ℕ) (y_scores : List ℚ) (k : ℚ),
      (y_scores.length : ℤ) ≤ pyInt (k * (y_scores.length : ℚ)) →
      precision_at_k y_true y_scores k = none := by
    intro y_true y_scores k h
    simp only [precision_at_k]
    rw [if_neg (fun hc => absurd hc.2 (not_lt.mpr h))]
  refine ⟨main, ?_, ?_⟩
  · intro y_true y_scores _
    apply main
    have h1 : pyInt (1 * (y_scores.length : ℚ)) = (y_scores.length : ℤ) := by
      unfold pyInt
      rw [one_mul, if_pos (Nat.cast_nonneg _), Int.floor_natCast]
    rw [h1]
  · intro y_true k
    apply main
    have h1 : pyInt (k * ((List.length ([] : List ℚ)) : ℚ)) = 0 := by
      simp [pyInt]
    rw [h1]
    simp

/-- Witness for C10: `k = 1` on the one-element score list fails. -/
theorem precision_at_k_upper_endpoint_witness :
    precision_at_k [1] [(1 : ℚ)] 1 = none :=
  precision_at_k_upper_endpoint.2.1 [1] [(1 : ℚ)] (by simp)

/-- C3: every row of the label table built by `generate_labels` carries
label 1 iff some spell of the qualifying benefit category for the same
entity starts in the forward window `[P, P + months_ahead)`, and label 0
otherwise (the left join yields NULL and the CASE maps it to 0); the
label is always 0 or 1. -/
theorem labelTable_label_iff (spells : List Spell) (P w1 w2 w3 : ℤ)
    (r : LabelRow) (hr : r ∈ labelTable spells P w1 w2 w3) :
    (r.label = 1 ↔ ∃ s ∈ spells, s.recptno = r.recptno ∧
        s.benefit_type = "tanf46" ∧ P ≤ s.start_date ∧ s.start_date < P + w3)
    ∧ (r.label = 0 ∨ r.label = 1) := by
  unfold labelTable at hr
  rw [List.mem_map] at hr
  obtain ⟨p, hp, rfl⟩ := hr
  obtain ⟨a, ob⟩ := p
  obtain ⟨hpa, hnone, hsome⟩ :=
    leftJoinBy_mem Spell.recptno Spell.recptno _ _ (a, ob) hp
  have hkey : (∃ b ∈ cohortReturned spells P w3 (cohort spells P w1 w2),
        b.recptno = a.recptno)
      ↔ ∃ s ∈ spells, s.recptno = a.recptno ∧ s.benefit_type = "tanf46" ∧
          P ≤ s.start_date ∧ s.start_date < P + w3 := by
    unfold cohortReturned
    rw [distinctOn_keys]
    unfold returnedPool
    constructor
    · rintro ⟨x, hx, hxk⟩
      rw [List.mem_filter] at hx
      obtain ⟨hxs, hcond⟩ := hx
      simp only [Bool.and_eq_true, decide_eq_true_eq, beq_iff_eq] at hcond
      exact ⟨x, hxs, hxk, hcond.1.2, hcond.1.1.1, hcond.1.1.2⟩
    · rintro ⟨s, hs, hsk, hb, h1, h2⟩
      refine ⟨s, ?_, hsk⟩
      rw [List.mem_filter]
      refine ⟨hs, ?_⟩
      simp only [Bool.and_eq_true, decide_eq_true_eq, beq_iff_eq,
        List.any_eq_true]
      exact ⟨⟨⟨h1, h2⟩, hb⟩, a, hpa, hsk.symm⟩
  rcases ob with _ | b
  · have hno : ¬ ∃ b ∈ cohortReturned spells P w3 (cohort spells P w1 w2),
        b.recptno = a.recptno := by
      rintro ⟨b, hb, hbk⟩
      exact (hnone rfl b hb) hbk
    exact ⟨⟨fun h01 => absurd h01 (by simp),
      fun hex => absurd (hkey.mpr hex) hno⟩, Or.inl rfl⟩
  · obtain ⟨hbret, hbk⟩ := hsome b rfl
    exact ⟨⟨fun _ => hkey.mp ⟨b, hbret, hbk⟩, fun _ => rfl⟩, Or.inr rfl⟩

/-- Witness for C3: the label row of entity C (id 3) in the concrete
scenario has label 1, and indeed a qualifying forward spell exists. -/
theorem labelTable_label_iff_witness :
    ((⟨3, -40, -20, 1⟩ : LabelRow).label = 1 ↔
        ∃ s ∈ scSpells, s.recptno = (⟨3, -40, -20, 1⟩ : LabelRow).recptno ∧
          s.benefit_type = "tanf46" ∧ (0 : ℤ) ≤ s.start_date ∧
          s.start_date < 0 + 60)
    ∧ ((⟨3, -40, -20, 1⟩ : LabelRow).label = 0 ∨
        (⟨3, -40, -20, 1⟩ : LabelRow).label = 1) :=
  labelTable_label_iff scSpells 0 10 20 60 ⟨3, -40, -20, 1⟩ (by decide)

/-- C4: the outcome joiner (`cohort_returned`) keeps at most one row
per entity id, and the kept row has the earliest start date among the
entity's rows; in the concrete scenario where entity C (id 3) has two
forward spells starting at day 5 and day 40 inside the 0-60 day forward
window, the joiner keeps for C exactly the day-5 row, and the label
table has exactly one row for C. -/
theorem cohortReturned_earliest :
    (∀ (rows : List Spell) (k : ℕ),
        (distinctOn rows).countP (fun b => b.recptno == k) ≤ 1)
    ∧ (∀ (rows : List Spell) (b : Spell), b ∈ distinctOn rows →
        ∀ r ∈ rows, r.recptno = b.recptno → b.start_date ≤ r.start_date)
    ∧ (cohortReturned scSpells 0 60 (cohort scSpells 0 10 20)).filter
        (fun b => b.recptno == 3) = [⟨3, 5, 20, "tanf46"⟩]
    ∧ ((labelTable scSpells 0 10 20 60).filter
        (fun r => r.recptno == 3)).length = 1 := by
  refine ⟨?_, ?_, by decide, by decide⟩
  · intro rows k
    exact countP_key_le_one Spell.recptno (distinctOn rows)
      (distinctOn_pairwise rows) k
  · intro rows b hb r hr hk
    exact distinctOn_min rows b hb r hr hk

/-- Witness for C4: in the two-forward-spell scenario the kept day-5 row
has a start date at most that of the day-40 row. -/
theorem cohortReturned_earliest_witness :
    (⟨3, 5, 20, "tanf46"⟩ : Spell).start_date ≤
      (⟨3, 40, 55, "tanf46"⟩ : Spell).start_date :=
  cohortReturned_earliest.2.1 [⟨3, 5, 20, "tanf46"⟩, ⟨3, 40, 55, "tanf46"⟩]
    ⟨3, 5, 20, "tanf46"⟩ (by decide) ⟨3, 40, 55, "tanf46"⟩ (by decide)
    (by decide)

/-- C5: when the label table for the prediction date exists and
`overwrite = false`, `generate_labels` recomputes nothing and returns
the stored table unchanged, whatever window parameters are passed; with
`overwrite = true` it drops and rebuilds.  The concrete part shows a
call whose parameters (lookback 25 instead of 20) would produce a
different table, yet still returns the stale stored table. -/
theorem generate_labels_overwrite_contract :
    (∀ (spells : List Spell) (P w1 w2 w3 : ℤ) (t : List LabelRow),
        generate_labels spells P w1 w2 w3 false (some t) = (t, some t))
    ∧ (∀ (spells : List Spell) (P w1 w2 w3 : ℤ)
          (st : Option (List LabelRow)),
        generate_labels spells P w1 w2 w3 true st
          = (labelTable spells P w1 w2 w3,
             some (labelTable spells P w1 w2 w3)))
    ∧ labelTable demoSpells 0 10 20 60 ≠ labelTable demoSpells 0 10 25 60
    ∧ (generate_labels demoSpells 0 10 25 60 false
        (some (labelTable demoSpells 0 10 20 60))).1
        = labelTable demoSpells 0 10 20 60 := by
  refine ⟨fun _ _ _ _ _ _ => rfl, ?_, by decide, rfl⟩
  intro spells P w1 w2 w3 st
  cases st <;> rfl

/-- C6 counterexample: an entity with two spells ending inside the
trailing window gets TWO rows in the label table, so the table is not
one-row-per-entity. -/
theorem labelTable_duplicate_entity :
    ((labelTable dupSpells 0 10 20 60).map LabelRow.recptno).count 7 = 2
    ∧ ¬ ((labelTable dupSpells 0 10 20 60).map LabelRow.recptno).count 7 ≤ 1 :=
  ⟨by decide, by decide⟩

/-- C6 amended: the label table has exactly one row per cohort ROW
(qualifying trailing-window spell), in cohort order with the same
entity ids — the outcome join (at most one row per entity) never drops
or duplicates a cohort row, but an entity with several qualifying
spells appears once per spell. -/
theorem labelTable_one_row_per_cohort_row :
    ∀ (spells : List Spell) (P w1 w2 w3 : ℤ),
      (labelTable spells P w1 w2 w3).map LabelRow.recptno
        = (cohort spells P w1 w2).map Spell.recptno
      ∧ (labelTable spells P w1 w2 w3).length
        = (cohort spells P w1 w2).length := by
  intro spells P w1 w2 w3
  have hpair :=
    distinctOn_pairwise (returnedPool spells P w3 (cohort spells P w1 w2))
  have hle : ∀ a : Spell,
      ((cohortReturned spells P w3 (cohort spells P w1 w2)).filter
        (fun b => b.recptno == a.recptno)).length ≤ 1 := by
    intro a
    rw [← List.countP_eq_length_filter]
    exact countP_key_le_one Spell.recptno _ hpair _
  have hjoin := leftJoinBy_eq_map Spell.recptno Spell.recptno _ hle
    (cohort spells P w1 w2)
  constructor
  · unfold labelTable
    rw [hjoin, List.map_map, List.map_map]
    exact List.map_congr_left fun a _ => rfl
  · unfold labelTable
    rw [List.length_map, hjoin, List.length_map]

/-- C7: the matrix assembly (left join of features onto labels, then
dropping missing-value rows and rows with `age_first_admit` outside
`[14, 99]`) neither drops nor duplicates a labeled entity — each
appears exactly once in the joined matrix — and the counts satisfy
`len(clean) + dropped_missing + dropped_out_of_range = len(labels)`.
The hypotheses state the data-model invariant that the label and
feature tables are one-row-per-entity. -/
theorem train_matrix_partition (labels : List RecLabelRow)
    (features : List FeatureRow)
    (hf : features.Pairwise
      (fun a b => a.inmate_doc_number ≠ b.inmate_doc_number))
    (hl : labels.Pairwise
      (fun a b => a.inmate_doc_number ≠ b.inmate_doc_number)) :
    (∀ l ∈ labels,
        (train_matrix labels features).countP
          (fun r => r.inmate_doc_number == l.inmate_doc_number) = 1)
    ∧ (cleanMatrix (train_matrix labels features)).length
        + droppedMissing (train_matrix labels features)
        + droppedOutOfRange (train_matrix labels features)
        = labels.length := by
  have hle : ∀ a : RecLabelRow,
      ((features.filter
        (fun b => b.inmate_doc_number == a.inmate_doc_number)).length ≤ 1) := by
    intro a
    rw [← List.countP_eq_length_filter]
    exact countP_key_le_one FeatureRow.inmate_doc_number _ hf _
  have hjoin := leftJoinBy_eq_map RecLabelRow.inmate_doc_number
    FeatureRow.inmate_doc_number features hle labels
  have hmap : (train_matrix labels features).map MatrixRow.inmate_doc_number
      = labels.map RecLabelRow.inmate_doc_number := by
    unfold train_matrix
    rw [hjoin, List.map_map, List.map_map]
    exact List.map_congr_left fun a _ => rfl
  have hlen : (train_matrix labels features).length = labels.length := by
    have h2 := congrArg List.length hmap
    simpa using h2
  constructor
  · intro l hlmem
    have h1 : (train_matrix labels features).countP
          (fun r => r.inmate_doc_number == l.inmate_doc_number)
        = ((train_matrix labels features).map
            MatrixRow.inmate_doc_number).countP
            (fun n => n == l.inmate_doc_number) := by
      rw [List.countP_map]
      rfl
    rw [h1, hmap, List.countP_map]
    exact countP_key_eq_one RecLabelRow.inmate_doc_number labels hl l hlmem
  · unfold cleanMatrix droppedMissing droppedOutOfRange
    have h2 := length_filter_add_length_filter_not
      ((train_matrix labels features).filter fun r => !hasMissing r) inAgeRange
    have h3 := length_filter_add_length_filter_not
      (train_matrix labels features) hasMissing
    have h4 : ((train_matrix labels features).filter
        fun r => !hasMissing r).length
        + ((train_matrix labels features).filter hasMissing).length
        = (train_matrix labels features).length := by
      have h5 := length_filter_add_length_filter_not
        (train_matrix labels features) (fun r => !hasMissing r)
      simpa using h5
    omega

/-- Witness for C7 on a one-row label table and a matching one-row
feature table. -/
theorem train_matrix_partition_witness :
    (cleanMatrix (train_matrix [⟨1, 1⟩]
        [⟨1, some 2, some 3, some 20, some 30⟩])).length
      + droppedMissing (train_matrix [⟨1, 1⟩]
          [⟨1, some 2, some 3, some 20, some 30⟩])
      + droppedOutOfRange (train_matrix [⟨1, 1⟩]
          [⟨1, some 2, some 3, some 20, some 30⟩])
      = ([⟨1, 1⟩] : List RecLabelRow).length :=
  (train_matrix_partition [⟨1, 1⟩] [⟨1, some 2, some 3, some 20, some 30⟩]
    (by simp) (by simp)).2

/-- C8: a spell enters the cohort iff its end date E satisfies
`P - W1 - W2 ≤ E < P - W1` and its benefit type qualifies; the cohort
contains one row per qualifying spell (multiplicities preserved). -/
theorem cohort_membership :
    ∀ (spells : List Spell) (P w1 w2 : ℤ) (s : Spell),
      (s ∈ cohort spells P w1 w2 ↔ s ∈ spells ∧
        P - w1 - w2 ≤ s.end_date ∧ s.end_date < P - w1 ∧
        s.benefit_type = "tanf46")
      ∧ (cohort spells P w1 w2).count s
        = (if P - w1 - w2 ≤ s.end_date ∧ s.end_date < P - w1 ∧
              s.benefit_type = "tanf46"
           then spells.count s else 0) := by
  intro spells P w1 w2 s
  constructor
  · unfold cohort
    rw [List.mem_filter]
    simp only [Bool.and_eq_true, decide_eq_true_eq, beq_iff_eq]
    constructor
    · rintro ⟨h0, ⟨h1, h2⟩, h3⟩
      exact ⟨h0, h1, h2, h3⟩
    · rintro ⟨h0, h1, h2, h3⟩
      exact ⟨h0, ⟨h1, h2⟩, h3⟩
  · unfold cohort
    by_cases hc : P - w1 - w2 ≤ s.end_date ∧ s.end_date < P - w1 ∧
        s.benefit_type = "tanf46"
    · rw [if_pos hc]
      apply List.count_filter
      simp only [Bool.and_eq_true, decide_eq_true_eq, beq_iff_eq]
      exact ⟨⟨hc.1, hc.2.1⟩, hc.2.2⟩
    · rw [if_neg hc]
      rw [List.count_eq_zero]
      intro hmem
      rw [List.mem_filter] at hmem
      apply hc
      have h6 := hmem.2
      simp only [Bool.and_eq_true, decide_eq_true_eq, beq_iff_eq] at h6
      exact ⟨h6.1.1, h6.1.2, h6.2⟩

/-- C9: with `overwrite = true` and fixed parameters and data, the
result of `generate_labels` does not depend on the pre-existing table
state, and an immediately repeated call returns the identical label
table: the builder is a deterministic function of its inputs. -/
theorem generate_labels_deterministic :
    ∀ (spells : List Spell) (P w1 w2 w3 : ℤ)
      (st1 st2 : Option (List LabelRow)),
      (generate_labels spells P w1 w2 w3 true st1).1
        = (generate_labels spells P w1 w2 w3 true st2).1
      ∧ (generate_labels spells P w1 w2 w3 true
          (generate_labels spells P w1 w2 w3 true st1).2).1
        = (generate_labels spells P w1 w2 w3 true st1).1 := by
  intro spells P w1 w2 w3 st1 st2
  cases st1 <;> cases st2 <;> exact ⟨rfl, rfl⟩

end BDSS
